import Mathlib

/-!
Shallow embedding of the bevy-tetris game core (src/brick.rs, src/score.rs,
src/app_state.rs).  Coordinates are `i8` in the source; all values that occur
stay far away from the `i8` range boundaries, so they are modelled as `Int`.
Bevy entities carrying a `BrickPos` component are modelled as lists of
positions; the `BrickMoveable` marker splits them into the `active` and
`stable` lists of `GameState`.  Events are modelled by applying the handler
systems' effects in the frame order fixed by the plugin schedule.
-/

namespace Tetris

/-- `AppState` from src/app_state.rs. -/
inductive AppState where
  | Gaming
  | GameOver
deriving DecidableEq

/-- `BrickPos` from src/brick.rs (fields are `i8` in the source). -/
structure BrickPos where
  x : Int
  y : Int
deriving DecidableEq

/-- `impl Add for BrickPos`: component-wise addition. -/
def BrickPos.add (a b : BrickPos) : BrickPos := ⟨a.x + b.x, a.y + b.y⟩

instance : Add BrickPos := ⟨BrickPos.add⟩

theorem BrickPos.add_def (a b : BrickPos) : a + b = ⟨a.x + b.x, a.y + b.y⟩ := rfl

/-- `Vec::contains` on a vector of `BrickPos` (derived `PartialEq` is
structural equality): linear scan. -/
def memb (p : BrickPos) (l : List BrickPos) : Bool :=
  l.any (fun q => decide (q = p))

/-- `Vec::contains` on a vector of `i8` row indices. -/
def membI (y : Int) (l : List Int) : Bool :=
  l.any (fun z => decide (z = y))

/-- `BOARD_WIDTH` from src/brick.rs. -/
def BOARD_WIDTH : Int := 10
/-- `BOARD_HEIGHT` from src/brick.rs. -/
def BOARD_HEIGHT : Int := 20
/-- `SPAWN_X = BOARD_WIDTH / 2 - 2`. -/
def SPAWN_X : Int := BOARD_WIDTH / 2 - 2
/-- `SPAWN_Y = BOARD_HEIGHT - 2`. -/
def SPAWN_Y : Int := BOARD_HEIGHT - 2

/-- `is_legal` from src/brick.rs: every candidate cell must be inside the
board and must not coincide with a stable (locked) cell.  The source loop
returns `false` at the first offending cell, which is `List.all` of the
negated disjunction. -/
def is_legal (brick_pos_arr_new : List BrickPos) (brick_stable_arr : List BrickPos) : Bool :=
  brick_pos_arr_new.all fun p =>
    !(decide (p.x < 0) || decide (BOARD_WIDTH ≤ p.x) || decide (p.y < 0) ||
      decide (BOARD_HEIGHT ≤ p.y) || memb p brick_stable_arr)

/-- `BRICK_TYPE_ARRAY` from src/brick.rs: 7 piece kinds, each a list of
rotation states, each state 4 relative offsets. -/
def BRICK_TYPE_ARRAY : List (List (List BrickPos)) := [
  -- quard
  [[⟨1, 0⟩, ⟨1, 1⟩, ⟨2, 0⟩, ⟨2, 1⟩]],
  -- line
  [[⟨0, 1⟩, ⟨1, 1⟩, ⟨2, 1⟩, ⟨3, 1⟩],
   [⟨2, 0⟩, ⟨2, 1⟩, ⟨2, 2⟩, ⟨2, 3⟩]],
  -- J
  [[⟨0, 1⟩, ⟨1, 1⟩, ⟨2, 1⟩, ⟨2, 0⟩],
   [⟨1, 0⟩, ⟨1, 1⟩, ⟨1, 2⟩, ⟨0, 0⟩],
   [⟨0, 1⟩, ⟨1, 1⟩, ⟨2, 1⟩, ⟨0, 2⟩],
   [⟨1, 0⟩, ⟨1, 1⟩, ⟨1, 2⟩, ⟨2, 2⟩]],
  -- L
  [[⟨0, 1⟩, ⟨1, 1⟩, ⟨2, 1⟩, ⟨0, 0⟩],
   [⟨1, 0⟩, ⟨1, 1⟩, ⟨1, 2⟩, ⟨0, 2⟩],
   [⟨0, 1⟩, ⟨1, 1⟩, ⟨2, 1⟩, ⟨2, 2⟩],
   [⟨1, 0⟩, ⟨1, 1⟩, ⟨1, 2⟩, ⟨2, 0⟩]],
  -- S
  [[⟨0, 0⟩, ⟨1, 0⟩, ⟨1, 1⟩, ⟨2, 1⟩],
   [⟨1, 2⟩, ⟨1, 1⟩, ⟨2, 1⟩, ⟨2, 0⟩]],
  -- Z
  [[⟨0, 1⟩, ⟨1, 1⟩, ⟨1, 0⟩, ⟨2, 0⟩],
   [⟨2, 2⟩, ⟨2, 1⟩, ⟨1, 1⟩, ⟨1, 0⟩]],
  -- T
  [[⟨0, 1⟩, ⟨1, 1⟩, ⟨2, 1⟩, ⟨1, 0⟩],
   [⟨1, 0⟩, ⟨1, 1⟩, ⟨1, 2⟩, ⟨0, 1⟩],
   [⟨0, 1⟩, ⟨1, 1⟩, ⟨2, 1⟩, ⟨1, 2⟩],
   [⟨1, 0⟩, ⟨1, 1⟩, ⟨1, 2⟩, ⟨2, 1⟩]]]

/-- `BRICK_TYPE_ARRAY[t].brick_shape_arr.len()` (indices used by the game are
always in range, so an out-of-range index — a panic in the source — is given
the defaulted value). -/
def numShapes (t : Nat) : Nat := (BRICK_TYPE_ARRAY.getD t []).length

/-- `BRICK_TYPE_ARRAY[t].brick_shape_arr[i].brick_pos_arr`. -/
def shapeOf (t i : Nat) : List BrickPos := (BRICK_TYPE_ARRAY.getD t []).getD i []

/-- The absolute cells of shape `i` of kind `t` at origin `o`
(`pos + brick_state.brick_pos_origin` in the source). -/
def cellsAt (t i : Nat) (o : BrickPos) : List BrickPos :=
  (shapeOf t i).map (fun p => p + o)

/-- The spawn cells of `brick_gen`:
`BrickPos::new(SPAWN_X + pos.x, SPAWN_Y + pos.y)` over shape 0 of kind `t`. -/
def spawnCells (t : Nat) : List BrickPos :=
  (shapeOf t 0).map (fun p => BrickPos.mk (SPAWN_X + p.x) (SPAWN_Y + p.y))

/-- `BrickState` resource from src/brick.rs. -/
structure BrickState where
  brick_type_index : Nat
  brick_shape_index : Nat
  brick_pos_origin : BrickPos
deriving DecidableEq

/-- The keyboard state read by the `input` and `restart` systems
(`just_pressed` on W, S, A, D, Space, R). -/
structure Keys where
  w : Bool
  s : Bool
  a : Bool
  d : Bool
  space : Bool
  r : Bool
deriving DecidableEq

/-- What one run of the `input` system produces: the updated `BrickState`,
the payload of the `NewPosEvent` if one was sent, and whether a
`StableEvent` was sent. -/
structure InputOut where
  state : BrickState
  new_pos : Option (List BrickPos)
  stable_sent : Bool
deriving DecidableEq

/-- The hard-drop search loop of `input` (`KeyCode::Space` branch):
`max_down` grows while moving down by `max_down + 1` stays legal.  The
source loop has no fuel; whenever the current position is legal every cell
has `y < BOARD_HEIGHT`, so the loop stops after at most `BOARD_HEIGHT`
successful steps and the fuel `BOARD_HEIGHT + 1 = 21` is never exhausted. -/
def hardDropGo (m s : List BrickPos) : Nat → Nat → Nat
  | 0, acc => acc
  | fuel + 1, acc =>
    let down := acc + 1
    if is_legal (m.map (fun p => p + BrickPos.mk 0 (-(down : Int)))) s then
      hardDropGo m s fuel down
    else
      acc

/-- The value `max_down` finally assigned by the hard-drop loop. -/
def hardDropDist (m s : List BrickPos) : Nat := hardDropGo m s 21 0

/-- The `brick_pos_move` selected by the S / A / D / Space branch chain of
`input` (`none` models the final `else return`). -/
def moveKey (k : Keys) (m s : List BrickPos) : Option BrickPos :=
  if k.s then some ⟨0, -1⟩
  else if k.a then some ⟨-1, 0⟩
  else if k.d then some ⟨1, 0⟩
  else if k.space then some ⟨0, -(hardDropDist m s : Int)⟩
  else none

/-- The `input` system from src/brick.rs, as a function of the pressed keys,
the movable cells `m`, the stable cells `s` and the `BrickState` resource. -/
def input (k : Keys) (m s : List BrickPos) (bs : BrickState) : InputOut :=
  if m.isEmpty then ⟨bs, none, false⟩
  else if k.w then
    -- shift (rotate)
    let idxNew := (bs.brick_shape_index + 1) % numShapes bs.brick_type_index
    let cells := cellsAt bs.brick_type_index idxNew bs.brick_pos_origin
    if is_legal cells s then
      ⟨{ bs with brick_shape_index := idxNew }, some cells, false⟩
    else
      ⟨bs, none, false⟩
  else
    -- move
    match moveKey k m s with
    | none => ⟨bs, none, false⟩
    | some mv =>
      let cells := m.map (fun p => p + mv)
      if is_legal cells s then
        ⟨{ bs with brick_pos_origin := bs.brick_pos_origin + mv }, some cells, false⟩
      else if mv.y = -1 then
        ⟨bs, none, true⟩   -- force down when can't move, stable all brick
      else
        ⟨bs, none, false⟩

/-- The state change of one accepted rotation:
`brick_shape_index := (brick_shape_index + 1) % numShapes`. -/
def rotateStep (bs : BrickState) : BrickState :=
  { bs with brick_shape_index := (bs.brick_shape_index + 1) % numShapes bs.brick_type_index }

/-- The command a single `input` pass handles, read off the branch structure
of the source: W first, then S, A, D, Space. -/
inductive Cmd where
  | rot
  | soft
  | left
  | right
  | hard
deriving DecidableEq

/-- Which command (if any) one `input` pass processes for a key state. -/
def selCmd (k : Keys) : Option Cmd :=
  if k.w then some Cmd.rot
  else if k.s then some Cmd.soft
  else if k.a then some Cmd.left
  else if k.d then some Cmd.right
  else if k.space then some Cmd.hard
  else none

/-- The key state that presses exactly the key of one command. -/
def keysFor : Option Cmd → Keys
  | none => ⟨false, false, false, false, false, false⟩
  | some Cmd.rot => ⟨true, false, false, false, false, false⟩
  | some Cmd.soft => ⟨false, true, false, false, false, false⟩
  | some Cmd.left => ⟨false, false, true, false, false, false⟩
  | some Cmd.right => ⟨false, false, false, true, false, false⟩
  | some Cmd.hard => ⟨false, false, false, false, true, false⟩

/-- `0, 1, ..., n-1` as `Int` values (the `for y in 0..BOARD_HEIGHT` loops). -/
def intRange (n : Nat) : List Int := (List.range n).map (fun i : Nat => (i : Int))

/-- Row `y` is full: every `x in 0..BOARD_WIDTH` is occupied (the inner loop
of `brick_fullline_clear` breaks at the first missing cell). -/
def isFullRow (l : List BrickPos) (y : Int) : Bool :=
  (List.range 10).all fun x : Nat => memb ⟨(x : Int), y⟩ l

/-- `y_to_remove` of `brick_fullline_clear`: the full rows, bottom to top. -/
def fullRows (l : List BrickPos) : List Int :=
  (intRange 20).filter (isFullRow l)

/-- The entries `(old pos, new pos)` the compaction loop inserts for row `y`
when the running target row is `ty`. -/
def rowEntries (l : List BrickPos) (y ty : Int) : List (BrickPos × BrickPos) :=
  (List.range 10).filterMap fun x : Nat =>
    if memb ⟨(x : Int), y⟩ l then some (⟨(x : Int), y⟩, ⟨(x : Int), ty⟩) else none

/-- The `left_brick_pos_new_pos_map` built by `brick_fullline_clear`: walk
the rows bottom-to-top, skip removed rows, and bump the target row only
after a row that contributed at least one cell (`pos_assigned`). -/
def compactAux (l : List BrickPos) (removed : List Int) : List Int → Int → List (BrickPos × BrickPos)
  | [], _ => []
  | y :: ys, ty =>
    if membI y removed then compactAux l removed ys ty
    else
      let es := rowEntries l y ty
      if es.isEmpty then compactAux l removed ys ty
      else es ++ compactAux l removed ys (ty + 1)

/-- Key lookup in the position map (the source uses a `HashMap`; every key is
inserted exactly once, so first-match lookup has the same semantics). -/
def lookupPos : List (BrickPos × BrickPos) → BrickPos → Option BrickPos
  | [], _ => none
  | e :: es, p => if e.1 = p then some e.2 else lookupPos es p

/-- Move a surviving cell to its mapped position (cells absent from the map
keep their position, as in the source's `contains_key` guard). -/
def applyRemap (mp : List (BrickPos × BrickPos)) (p : BrickPos) : BrickPos :=
  match lookupPos mp p with
  | some q => q
  | none => p

/-- The net effect of `brick_fullline_clear` on the stable cells once at
least one full row exists: cells on removed rows are despawned, the rest
are moved by the compaction map. -/
def clearCells (l : List BrickPos) : List BrickPos :=
  let removed := fullRows l
  let mp := compactAux l removed (intRange 20) 0
  (l.filter fun p => !(membI p.y removed)).map (applyRemap mp)

/-- `brick_fullline_clear` from src/brick.rs: returns the stable cells after
the clear and the payload of the `FullLineRemoveEvent` if one was sent
(`y_to_remove.len() as u8`; the length is at most 20, so the cast to `u8`
is lossless). -/
def brick_fullline_clear (l : List BrickPos) : List BrickPos × Option Nat :=
  if l.isEmpty then (l, none)
  else
    let removed := fullRows l
    if removed.length = 0 then (l, none)
    else (clearCells l, some removed.length)

/-- `score_up` from src/score.rs on an event carrying `n` cleared rows:
`score += if n == 4 { 2^n } else { 2^(n-1) }`.  The score and the powers are
`u32` and `n` is `u8`; `n - 1` underflows for `n = 0` (a panic in a debug
build), which is modelled by `none`.  All values reachable in the game stay
far below `2^32`. -/
def score_up (n : Nat) (score : Nat) : Option Nat :=
  if n = 4 then some (score + 2 ^ n)
  else if 1 ≤ n then some (score + 2 ^ (n - 1))
  else none

/-- The whole-game state: stable (locked) cells, the movable cells of the
active piece, the `BrickState` resource, the `AppState`, and the `Score`
resource. -/
structure GameState where
  stable : List BrickPos
  active : List BrickPos
  bs : BrickState
  app : AppState
  score : Nat
deriving DecidableEq

/-- The frame tail after a `StableEvent`: `brick_stable` drops the
`BrickMoveable` markers (movable cells become stable), then
`brick_fullline_clear` runs in `PostUpdate`, and `score_up` consumes the
`FullLineRemoveEvent`. -/
def lockAndClear (g : GameState) : GameState :=
  let stable1 := g.stable ++ g.active
  let res := brick_fullline_clear stable1
  { g with
    stable := res.1
    active := []
    score := match res.2 with
      | some n => (score_up n g.score).getD g.score
      | none => g.score }

/-- One run of the `input` system together with the same-frame effects of
the events it sends (`brick_apply_new_pos` for `NewPosEvent`,
`brick_stable` + `brick_fullline_clear` + `score_up` for `StableEvent`). -/
def inputStep (k : Keys) (g : GameState) : GameState :=
  let r := input k g.active g.stable g.bs
  if r.stable_sent then lockAndClear g
  else
    { g with
      bs := r.state
      active := match r.new_pos with
        | some cs => cs
        | none => g.active }

/-- One firing of the fall timer in `brick_auto_fall`, with the same-frame
effects of the events it sends. -/
def brick_auto_fall (g : GameState) : GameState :=
  if g.active.isEmpty then g
  else
    let newCells := g.active.map (fun p => p + BrickPos.mk 0 (-1))
    if is_legal newCells g.stable then
      { g with
        bs := { g.bs with brick_pos_origin := g.bs.brick_pos_origin + BrickPos.mk 0 (-1) }
        active := newCells }
    else
      lockAndClear g

/-- `brick_gen` from src/brick.rs, with the random kind `t` injected: spawn
shape 0 of kind `t` at the spawn anchor; if any spawn cell already collides
with a stable cell the state is set to `GameOver`, but the piece is
materialized either way. -/
def brick_gen (t : Nat) (g : GameState) : GameState :=
  let cells := spawnCells t
  let over := cells.any (fun p => memb p g.stable)
  { g with
    bs := ⟨t, 0, ⟨SPAWN_X, SPAWN_Y⟩⟩
    active := cells
    app := if over then AppState.GameOver else g.app }

/-- `restart` from src/brick.rs on an `R` press: despawn every entity with a
`BrickPos` (stable and active), set the state back to `Gaming` and request a
spawn.  No system resets the `Score` resource, so the score is kept. -/
def restartState (g : GameState) : GameState :=
  { g with stable := [], active := [], app := AppState.Gaming }

/-- The per-frame key dispatch fixed by the plugin schedule: the `input`
system runs only in `Gaming` (`run_if(in_state(AppState::Gaming))`), the
`restart` system only in `GameOver`. -/
def commandStep (k : Keys) (g : GameState) : GameState :=
  match g.app with
  | AppState.Gaming => inputStep k g
  | AppState.GameOver => if k.r then restartState g else g

/-- The state right after startup: no cells, default resources, `Gaming`,
with the initial `SpawnEvent` pending. -/
def initialState : GameState :=
  ⟨[], [], ⟨0, 0, ⟨0, 0⟩⟩, AppState.Gaming, 0⟩

/-- One scheduler-level transition of the game: a spawn (random kind `t < 7`,
only with a spawn pending, i.e. no active piece), a key dispatch, or a fall
tick (the latter two only in the states where their systems run). -/
inductive Step : GameState → GameState → Prop where
  | spawn (g : GameState) (t : Nat) : t < 7 → g.app = AppState.Gaming → g.active = [] →
      Step g (brick_gen t g)
  | command (g : GameState) (k : Keys) : Step g (commandStep k g)
  | fall (g : GameState) : g.app = AppState.Gaming → Step g (brick_auto_fall g)

/-- States reachable from startup by scheduler transitions. -/
inductive Reachable : GameState → Prop where
  | init : Reachable initialState
  | step {g g' : GameState} : Reachable g → Step g g' → Reachable g'

/-! ### Basic lemmas about membership and legality -/

theorem memb_eq_true {p : BrickPos} {l : List BrickPos} : memb p l = true ↔ p ∈ l := by
  simp [memb, List.any_eq_true]

theorem membI_eq_true {y : Int} {l : List Int} : membI y l = true ↔ y ∈ l := by
  simp [membI, List.any_eq_true]

theorem memb_eq_false {p : BrickPos} {l : List BrickPos} : memb p l = false ↔ p ∉ l := by
  rw [Bool.eq_false_iff, Ne, memb_eq_true]

theorem membI_eq_false {y : Int} {l : List Int} : membI y l = false ↔ y ∉ l := by
  rw [Bool.eq_false_iff, Ne, membI_eq_true]

theorem is_legal_eq_true {cand locked : List BrickPos} :
    is_legal cand locked = true ↔
      ∀ p ∈ cand, 0 ≤ p.x ∧ p.x < BOARD_WIDTH ∧ 0 ≤ p.y ∧ p.y < BOARD_HEIGHT ∧ p ∉ locked := by
  simp only [is_legal, List.all_eq_true, Bool.not_eq_true']
  refine forall_congr' fun p => forall_congr' fun hp => ?_
  constructor
  · intro h
    have h' : decide (p.x < 0) = false ∧ decide (BOARD_WIDTH ≤ p.x) = false ∧
        decide (p.y < 0) = false ∧ decide (BOARD_HEIGHT ≤ p.y) = false ∧
        memb p locked = false := by
      revert h
      cases decide (p.x < 0) <;> cases decide (BOARD_WIDTH ≤ p.x) <;>
        cases decide (p.y < 0) <;> cases decide (BOARD_HEIGHT ≤ p.y) <;>
        cases memb p locked <;> simp
    obtain ⟨h1, h2, h3, h4, h5⟩ := h'
    exact ⟨not_lt.mp (of_decide_eq_false h1), not_le.mp (of_decide_eq_false h2),
      not_lt.mp (of_decide_eq_false h3), not_le.mp (of_decide_eq_false h4),
      memb_eq_false.mp h5⟩
  · intro ⟨h1, h2, h3, h4, h5⟩
    rw [decide_eq_false (not_lt.mpr h1), decide_eq_false (not_le.mpr h2),
      decide_eq_false (not_lt.mpr h3), decide_eq_false (not_le.mpr h4),
      memb_eq_false.mpr h5]
    rfl

theorem is_legal_eq_false {cand locked : List BrickPos} :
    is_legal cand locked = false ↔
      ∃ p ∈ cand, p.x < 0 ∨ BOARD_WIDTH ≤ p.x ∨ p.y < 0 ∨ BOARD_HEIGHT ≤ p.y ∨ p ∈ locked := by
  rw [Bool.eq_false_iff, Ne, is_legal_eq_true]
  constructor
  · intro h
    obtain ⟨p, hp⟩ := not_forall.mp h
    obtain ⟨hmem, hbad⟩ := Classical.not_imp.mp hp
    refine ⟨p, hmem, ?_⟩
    by_cases h1 : p.x < 0
    · exact Or.inl h1
    by_cases h2 : BOARD_WIDTH ≤ p.x
    · exact Or.inr (Or.inl h2)
    by_cases h3 : p.y < 0
    · exact Or.inr (Or.inr (Or.inl h3))
    by_cases h4 : BOARD_HEIGHT ≤ p.y
    · exact Or.inr (Or.inr (Or.inr (Or.inl h4)))
    refine Or.inr (Or.inr (Or.inr (Or.inr ?_)))
    by_contra h5
    exact hbad ⟨not_lt.mp h1, not_le.mp h2, not_lt.mp h3, not_le.mp h4, h5⟩
  · rintro ⟨p, hp, h⟩ hall
    obtain ⟨h1, h2, h3, h4, h5⟩ := hall p hp
    rcases h with h | h | h | h | h
    · exact absurd h1 (not_le.mpr h)
    · exact absurd h2 (not_lt.mpr h)
    · exact absurd h3 (not_le.mpr h)
    · exact absurd h4 (not_lt.mpr h)
    · exact h5 h

/-! ### Claim theorems: legality and scoring -/

/-- C1: `is_legal(candidate_cells, locked_cells)` returns `false` iff some
candidate cell has `x < 0`, `x ≥ width (10)`, `y < 0` or `y ≥ height (20)`,
or equals a locked cell; and returns `true` otherwise. -/
theorem is_legal_characterization (cand locked : List BrickPos) :
    (is_legal cand locked = false ↔
      ∃ p ∈ cand, p.x < 0 ∨ 10 ≤ p.x ∨ p.y < 0 ∨ 20 ≤ p.y ∨ p ∈ locked) ∧
    (is_legal cand locked = true ↔
      ∀ p ∈ cand, 0 ≤ p.x ∧ p.x < 10 ∧ 0 ≤ p.y ∧ p.y < 20 ∧ p ∉ locked) :=
  ⟨is_legal_eq_false, is_legal_eq_true⟩

/-- C2: `score_up` adds `2^n` for `n = 4` and `2^(n-1)` otherwise, i.e.
1, 2, 4, 16 points for 1, 2, 3, 4 cleared lines, for every prior score `s`;
three single clears followed by a double clear starting from 0 total 5. -/
theorem score_up_values (s : Nat) :
    score_up 1 s = some (s + 2 ^ 0) ∧
    score_up 2 s = some (s + 2 ^ 1) ∧
    score_up 3 s = some (s + 2 ^ 2) ∧
    score_up 4 s = some (s + 2 ^ 4) ∧
    score_up 1 s = some (s + 1) ∧
    score_up 2 s = some (s + 2) ∧
    score_up 3 s = some (s + 4) ∧
    score_up 4 s = some (s + 16) ∧
    (((score_up 1 0).bind (score_up 1)).bind (score_up 1)).bind (score_up 2) = some 5 := by
  refine ⟨rfl, rfl, rfl, ?_, rfl, rfl, rfl, ?_, rfl⟩ <;> simp [score_up]

/-- C10: the `FullLineRemoveEvent` is sent only with a positive row count,
so the `n - 1` in `score_up` never underflows: its error branch is
unreachable for any event the clear emits. -/
theorem full_line_event_positive (l : List BrickPos) (s n : Nat)
    (h : (brick_fullline_clear l).2 = some n) :
    1 ≤ n ∧ (score_up n s).isSome = true := by
  have hn : 1 ≤ n := by
    by_contra hlt
    have hn0 : n = 0 := by omega
    subst hn0
    by_cases he : l.isEmpty
    · simp [brick_fullline_clear, he] at h
    · by_cases hz : (fullRows l).length = 0
      · simp [brick_fullline_clear, he, hz] at h
      · simp [brick_fullline_clear, he, hz] at h
  refine ⟨hn, ?_⟩
  rcases eq_or_ne n 4 with h4 | h4
  · subst h4; rfl
  · unfold score_up
    rw [if_neg h4, if_pos hn]
    rfl

/-- The stable cells of a board whose bottom row is full (used to exhibit a
clear that emits an event). -/
def fullRowBoard : List BrickPos :=
  (List.range 10).map (fun x => ⟨(x : Int), 0⟩)

theorem full_line_event_positive_witness :
    (brick_fullline_clear fullRowBoard).2 = some 1 ∧
      (1 ≤ 1 ∧ (score_up 1 0).isSome = true) :=
  ⟨by decide, full_line_event_positive fullRowBoard 0 1 (by decide)⟩

/-! ### Restart (C3) -/

/-- A game-over state with a nonzero score: bottom-left cell locked, an O
piece materialized at the spawn anchor, score 5. -/
def gameOverScore5 : GameState :=
  ⟨[⟨0, 0⟩], spawnCells 0, ⟨0, 0, ⟨SPAWN_X, SPAWN_Y⟩⟩, AppState.GameOver, 5⟩

/-- The key state pressing only `R`. -/
def rKey : Keys := ⟨false, false, false, false, false, true⟩

/-- C3 (code evaluated at the failing input): pressing `R` in GameOver
despawns every board cell and returns to `Gaming`, but the score is NOT
reset to zero — no system ever writes `Score` back to 0, so the previous
score (here 5) survives the restart, contradicting the specified reset. -/
theorem restart_keeps_score :
    (commandStep rKey gameOverScore5).stable = [] ∧
    (commandStep rKey gameOverScore5).active = [] ∧
    (commandStep rKey gameOverScore5).app = AppState.Gaming ∧
    (commandStep rKey gameOverScore5).score = 5 ∧
    (commandStep rKey gameOverScore5).score ≠ 0 := by
  refine ⟨rfl, rfl, rfl, rfl, ?_⟩
  decide

/-! ### Input priority (C4) -/

/-- Key state pressing A (move left) and Space (hard drop) together. -/
def keysLeftHard : Keys := ⟨false, false, true, false, true, false⟩

/-- Key state pressing only A. -/
def keysLeft : Keys := ⟨false, false, true, false, false, false⟩

/-- Key state pressing only Space. -/
def keysHard : Keys := ⟨false, false, false, false, true, false⟩

/-- Key state pressing only W (rotate). -/
def keysRotate : Keys := ⟨true, false, false, false, false, false⟩

/-- The O piece freshly spawned on an empty board. -/
def oPieceCells : List BrickPos := spawnCells 0

/-- The `BrickState` of that freshly spawned O piece. -/
def oPieceState : BrickState := ⟨0, 0, ⟨SPAWN_X, SPAWN_Y⟩⟩

/-- C4 counterexample: with A (horizontal) and Space (hard drop) pressed in
the same pass, `input` processes the horizontal move, not the drop — the
claimed priority "drop before horizontal" fails. -/
theorem input_left_beats_hard_drop :
    input keysLeftHard oPieceCells [] oPieceState
        = input keysLeft oPieceCells [] oPieceState ∧
      input keysLeftHard oPieceCells [] oPieceState
        ≠ input keysHard oPieceCells [] oPieceState ∧
      (input keysLeftHard oPieceCells [] oPieceState).state.brick_pos_origin
        = ⟨SPAWN_X - 1, SPAWN_Y⟩ ∧
      (input keysHard oPieceCells [] oPieceState).state.brick_pos_origin
        = ⟨SPAWN_X, SPAWN_Y - 18⟩ := by
  refine ⟨rfl, ?_, by decide, by decide⟩
  decide

/-- C4 as amended: exactly one command is processed per `input` pass (the
pass behaves as if only the selected command's key were pressed), and the
priority order is W-rotate, then S-soft-drop, then A-left, then D-right,
then Space-hard-drop — hard drop comes after horizontal movement, not
before it. -/
theorem input_single_command_priority (k : Keys) (m s : List BrickPos) (bs : BrickState) :
    input k m s bs = input (keysFor (selCmd k)) m s bs ∧
    (k.w = true → selCmd k = some Cmd.rot) ∧
    (k.w = false → k.s = true → selCmd k = some Cmd.soft) ∧
    (k.w = false → k.s = false → k.a = true → selCmd k = some Cmd.left) ∧
    (k.w = false → k.s = false → k.a = false → k.d = true → selCmd k = some Cmd.right) ∧
    (k.w = false → k.s = false → k.a = false → k.d = false → k.space = true →
      selCmd k = some Cmd.hard) ∧
    (k.w = false → k.s = false → k.a = false → k.d = false → k.space = false →
      selCmd k = none) := by
  obtain ⟨w, ks, a, d, sp, r⟩ := k
  cases w <;> cases ks <;> cases a <;> cases d <;> cases sp <;> cases r <;>
    exact ⟨rfl, by decide, by decide, by decide, by decide, by decide, by decide⟩

theorem input_single_command_priority_witness :
    input ⟨false, true, true, true, true, false⟩ oPieceCells [] oPieceState
        = input (keysFor (selCmd ⟨false, true, true, true, true, false⟩))
            oPieceCells [] oPieceState ∧
      selCmd ⟨false, true, true, true, true, false⟩ = some Cmd.soft :=
  ⟨(input_single_command_priority ⟨false, true, true, true, true, false⟩
      oPieceCells [] oPieceState).1,
   (input_single_command_priority ⟨false, true, true, true, true, false⟩
      oPieceCells [] oPieceState).2.2.1 rfl rfl⟩

/-! ### Hard drop (C6) -/

theorem BrickPos.add_zero_right (p : BrickPos) : p + (⟨0, 0⟩ : BrickPos) = p := by
  cases p
  simp [BrickPos.add_def]

theorem map_add_zero_right (l : List BrickPos) :
    (l.map fun p => p + (⟨0, 0⟩ : BrickPos)) = l := by
  induction l with
  | nil => rfl
  | cons p l ih => simp [BrickPos.add_zero_right, ih]

theorem map_shift_shift (l : List BrickPos) (a b : Int) :
    ((l.map fun p => p + BrickPos.mk 0 a).map fun p => p + BrickPos.mk 0 b) =
      l.map fun p => p + BrickPos.mk 0 (a + b) := by
  rw [List.map_map]
  congr 1
  funext p
  cases p
  simp [Function.comp, BrickPos.add_def]
  ring

/-- Characterization of the hard-drop loop: as soon as some deeper shift is
illegal within the fuel, the loop stops at a value whose successor shift is
illegal, and which is itself legal unless the loop never advanced. -/
theorem hardDropGo_spec (m s : List BrickPos) :
    ∀ (fuel acc : Nat),
      (∃ j ≤ fuel,
        is_legal (m.map fun p => p + BrickPos.mk 0 (-((acc + 1 + j : Nat) : Int))) s = false) →
      is_legal (m.map fun p => p + BrickPos.mk 0 (-((hardDropGo m s fuel acc + 1 : Nat) : Int))) s
          = false ∧
        (is_legal (m.map fun p => p + BrickPos.mk 0 (-((hardDropGo m s fuel acc : Nat) : Int))) s
            = true ∨ hardDropGo m s fuel acc = acc) := by
  intro fuel
  induction fuel with
  | zero =>
    intro acc h
    obtain ⟨j, hj, hfalse⟩ := h
    interval_cases j
    exact ⟨by simpa using hfalse, Or.inr rfl⟩
  | succ fuel ih =>
    intro acc h
    by_cases hlegal :
        is_legal (m.map fun p => p + BrickPos.mk 0 (-((acc + 1 : Nat) : Int))) s = true
    · have hgo : hardDropGo m s (fuel + 1) acc = hardDropGo m s fuel (acc + 1) := by
        simp only [hardDropGo, hlegal, if_true]
      obtain ⟨j, hj, hfalse⟩ := h
      have hj0 : j ≠ 0 := by
        intro h0
        subst h0
        rw [show acc + 1 + 0 = acc + 1 by omega] at hfalse
        rw [hlegal] at hfalse
        simp at hfalse
      obtain ⟨j', rfl⟩ := Nat.exists_eq_succ_of_ne_zero hj0
      have hrec := ih (acc + 1)
        ⟨j', by omega, by rw [show acc + 1 + 1 + j' = acc + 1 + (j' + 1) by omega]; exact hfalse⟩
      rw [hgo]
      refine ⟨hrec.1, ?_⟩
      rcases hrec.2 with hgood | heq
      · exact Or.inl hgood
      · rw [heq]
        exact Or.inl hlegal
    · have hgo : hardDropGo m s (fuel + 1) acc = acc := by
        simp only [hardDropGo]
        rw [if_neg (by simpa using hlegal)]
      rw [hgo]
      exact ⟨by simpa using Bool.eq_false_iff.mpr hlegal, Or.inr rfl⟩

/-- When the current position is legal and the piece is nonempty, some
downward shift within the board height is illegal (the head cell leaves the
board), so the fuel of 21 is sufficient. -/
theorem hardDrop_stops (m s : List BrickPos) (hne : m ≠ []) (hleg : is_legal m s = true) :
    ∃ j ≤ 20, is_legal (m.map fun p => p + BrickPos.mk 0 (-((0 + 1 + j : Nat) : Int))) s = false := by
  obtain ⟨p, hp⟩ := List.exists_mem_of_ne_nil m hne
  obtain ⟨_, _, hy0, hyH, _⟩ := is_legal_eq_true.mp hleg p hp
  refine ⟨p.y.toNat, ?_, ?_⟩
  · have : (p.y.toNat : Int) = p.y := Int.toNat_of_nonneg hy0
    have : p.y < 20 := hyH
    omega
  · rw [is_legal_eq_false]
    refine ⟨p + BrickPos.mk 0 (-((0 + 1 + p.y.toNat : Nat) : Int)), List.mem_map_of_mem _ hp, ?_⟩
    refine Or.inr (Or.inr (Or.inl ?_))
    have hcast : ((0 + 1 + p.y.toNat : Nat) : Int) = 1 + p.y := by
      push_cast [Int.toNat_of_nonneg hy0]
      ring
    rw [BrickPos.add_def]
    simp only [hcast]
    omega

/-- C6: hard drop applies the largest legal downward displacement `(0, -d)`
(possibly `d = 0`) as one atomic move, never sends a `StableEvent` (never
locks), and is idempotent: a second hard drop from the result moves 0 cells
and leaves the origin unchanged. -/
theorem hard_drop_idempotent (m s : List BrickPos) (bs : BrickState)
    (hne : m ≠ []) (hleg : is_legal m s = true) :
    ∃ d : Nat,
      d = hardDropDist m s ∧
      is_legal (m.map fun p => p + BrickPos.mk 0 (-(d : Int))) s = true ∧
      is_legal (m.map fun p => p + BrickPos.mk 0 (-((d + 1 : Nat) : Int))) s = false ∧
      input keysHard m s bs =
        ⟨{ bs with brick_pos_origin := bs.brick_pos_origin + ⟨0, -(d : Int)⟩ },
          some (m.map fun p => p + BrickPos.mk 0 (-(d : Int))), false⟩ ∧
      hardDropDist (m.map fun p => p + BrickPos.mk 0 (-(d : Int))) s = 0 ∧
      input keysHard (m.map fun p => p + BrickPos.mk 0 (-(d : Int))) s
          { bs with brick_pos_origin := bs.brick_pos_origin + ⟨0, -(d : Int)⟩ } =
        ⟨{ bs with brick_pos_origin := bs.brick_pos_origin + ⟨0, -(d : Int)⟩ },
          some (m.map fun p => p + BrickPos.mk 0 (-(d : Int))), false⟩ := by
  have hspec := hardDropGo_spec m s 21 0 (by
    obtain ⟨j, hj, hf⟩ := hardDrop_stops m s hne hleg
    exact ⟨j, by omega, hf⟩)
  have hmne : m.isEmpty = false := by
    cases m with
    | nil => exact absurd rfl hne
    | cons p l => rfl
  have h0map : (m.map fun p => p + BrickPos.mk 0 (-((0 : Nat) : Int))) = m := by
    simp only [Nat.cast_zero, neg_zero]
    exact map_add_zero_right m
  have hstop : is_legal
      (m.map fun p => p + BrickPos.mk 0 (-((hardDropDist m s + 1 : Nat) : Int))) s = false :=
    hspec.1
  have hok : is_legal
      (m.map fun p => p + BrickPos.mk 0 (-((hardDropDist m s : Nat) : Int))) s = true := by
    rcases hspec.2 with h | h
    · exact h
    · have hd0 : hardDropDist m s = 0 := h
      rw [hd0, h0map]
      exact hleg
  refine ⟨hardDropDist m s, rfl, hok, hstop, ?_, ?_, ?_⟩
  · -- first hard drop: one atomic move by the maximal legal distance
    simp only [input, hmne, Bool.false_eq_true, if_false, keysHard, moveKey, if_true]
    rw [hok]
    rfl
  · -- second hard-drop distance is 0
    show hardDropGo _ s (20 + 1) 0 = 0
    have hint : (-(hardDropDist m s : Int)) + (-((0 + 1 : Nat) : Int)) =
        -((hardDropDist m s + 1 : Nat) : Int) := by
      push_cast
      ring
    simp only [hardDropGo]
    rw [map_shift_shift, hint, hstop]
    rfl
  · -- second hard drop: moves 0 cells, origin unchanged, no lock
    have hc1 : (m.map fun p => p + BrickPos.mk 0 (-(hardDropDist m s : Int))).isEmpty = false := by
      cases m with
      | nil => exact absurd rfl hne
      | cons p l => rfl
    have hsecond : hardDropDist (m.map fun p => p + BrickPos.mk 0 (-(hardDropDist m s : Int))) s
        = 0 := by
      show hardDropGo _ s (20 + 1) 0 = 0
      have hint : (-(hardDropDist m s : Int)) + (-((0 + 1 : Nat) : Int)) =
          -((hardDropDist m s + 1 : Nat) : Int) := by
        push_cast
        ring
      simp only [hardDropGo]
      rw [map_shift_shift, hint, hstop]
      rfl
    have hmap0 : ((m.map fun p => p + BrickPos.mk 0 (-(hardDropDist m s : Int))).map
        fun p => p + BrickPos.mk 0 (-((0 : Nat) : Int))) =
        m.map fun p => p + BrickPos.mk 0 (-(hardDropDist m s : Int)) := by
      simp only [Nat.cast_zero, neg_zero]
      exact map_add_zero_right _
    simp only [input, hc1, Bool.false_eq_true, if_false, keysHard, moveKey, if_true]
    rw [hsecond, hmap0, hok]
    simp only [if_true]
    have horigin : (bs.brick_pos_origin + ⟨0, -(hardDropDist m s : Int)⟩) +
        BrickPos.mk 0 (-((0 : Nat) : Int)) =
        bs.brick_pos_origin + ⟨0, -(hardDropDist m s : Int)⟩ := by
      simp only [Nat.cast_zero, neg_zero]
      exact BrickPos.add_zero_right _
    rw [horigin]

theorem hard_drop_idempotent_witness :
    oPieceCells ≠ [] ∧ is_legal oPieceCells [] = true ∧
      ∃ d : Nat,
        d = hardDropDist oPieceCells [] ∧
        is_legal (oPieceCells.map fun p => p + BrickPos.mk 0 (-(d : Int))) [] = true ∧
        is_legal (oPieceCells.map fun p => p + BrickPos.mk 0 (-((d + 1 : Nat) : Int))) [] = false ∧
        input keysHard oPieceCells [] oPieceState =
          ⟨{ oPieceState with
              brick_pos_origin := oPieceState.brick_pos_origin + ⟨0, -(d : Int)⟩ },
            some (oPieceCells.map fun p => p + BrickPos.mk 0 (-(d : Int))), false⟩ ∧
        hardDropDist (oPieceCells.map fun p => p + BrickPos.mk 0 (-(d : Int))) [] = 0 ∧
        input keysHard (oPieceCells.map fun p => p + BrickPos.mk 0 (-(d : Int))) []
            { oPieceState with
              brick_pos_origin := oPieceState.brick_pos_origin + ⟨0, -(d : Int)⟩ } =
          ⟨{ oPieceState with
              brick_pos_origin := oPieceState.brick_pos_origin + ⟨0, -(d : Int)⟩ },
            some (oPieceCells.map fun p => p + BrickPos.mk 0 (-(d : Int))), false⟩ :=
  ⟨by decide, by decide,
    hard_drop_idempotent oPieceCells [] oPieceState (by decide) (by decide)⟩

/-! ### Rotation (C7) -/

/-- Iterating `i ↦ (i + 1) % k` returns to the start after `k` steps. -/
theorem mod_cycle (k : Nat) : ∀ (n i : Nat), i < k →
    (fun j => (j + 1) % k)^[n] i = (i + n) % k := by
  intro n
  induction n with
  | zero =>
    intro i hi
    simp [Nat.mod_eq_of_lt hi]
  | succ n ih =>
    intro i hi
    rw [Function.iterate_succ_apply]
    have h1 : (i + 1) % k < k := Nat.mod_lt _ (by omega)
    rw [ih _ h1, Nat.mod_add_mod]
    congr 1
    omega

theorem rotateStep_iterate (bs : BrickState) : ∀ n : Nat,
    rotateStep^[n] bs =
      { bs with brick_shape_index :=
          (fun j => (j + 1) % numShapes bs.brick_type_index)^[n] bs.brick_shape_index } := by
  intro n
  induction n with
  | zero => rfl
  | succ n ih =>
    rw [Function.iterate_succ_apply', Function.iterate_succ_apply', ih]
    rfl

/-- C7: a single accepted rotate advances the rotation index to
`(current + 1) mod k` at the unchanged origin and repositions the piece to
the new shape's absolute cells; `k` accepted rotates (here: `k` applications
of the accepted-rotation state change, whose acceptance the legality
hypothesis supplies) restore the index, hence the original absolute 4-cell
set. -/
theorem rotation_cycle (m s : List BrickPos) (bs : BrickState) (hm : m ≠ [])
    (hleg : is_legal
      (cellsAt bs.brick_type_index
        ((bs.brick_shape_index + 1) % numShapes bs.brick_type_index) bs.brick_pos_origin) s
      = true)
    (hi : bs.brick_shape_index < numShapes bs.brick_type_index) :
    input keysRotate m s bs =
      ⟨rotateStep bs,
        some (cellsAt bs.brick_type_index
          ((bs.brick_shape_index + 1) % numShapes bs.brick_type_index) bs.brick_pos_origin),
        false⟩ ∧
    (rotateStep bs).brick_pos_origin = bs.brick_pos_origin ∧
    (rotateStep bs).brick_shape_index = (bs.brick_shape_index + 1) % numShapes bs.brick_type_index ∧
    rotateStep^[numShapes bs.brick_type_index] bs = bs ∧
    cellsAt (rotateStep^[numShapes bs.brick_type_index] bs).brick_type_index
        (rotateStep^[numShapes bs.brick_type_index] bs).brick_shape_index
        (rotateStep^[numShapes bs.brick_type_index] bs).brick_pos_origin =
      cellsAt bs.brick_type_index bs.brick_shape_index bs.brick_pos_origin := by
  have hmne : m.isEmpty = false := by
    cases m with
    | nil => exact absurd rfl hm
    | cons p l => rfl
  have hcycle : rotateStep^[numShapes bs.brick_type_index] bs = bs := by
    rw [rotateStep_iterate]
    have : (fun j => (j + 1) % numShapes bs.brick_type_index)^[numShapes bs.brick_type_index]
        bs.brick_shape_index = bs.brick_shape_index := by
      rw [mod_cycle _ _ _ hi, Nat.add_mod_right, Nat.mod_eq_of_lt hi]
    rw [this]
  refine ⟨?_, rfl, rfl, hcycle, by rw [hcycle]⟩
  simp only [input, hmne, Bool.false_eq_true, if_false, keysRotate, if_true]
  rw [hleg]
  rfl

/-- A J piece (kind 2, 4 rotation states) in shape 0 at origin (3,10). -/
def jPieceState : BrickState := ⟨2, 0, ⟨3, 10⟩⟩

/-- The absolute cells of that J piece. -/
def jPieceCells : List BrickPos := cellsAt 2 0 ⟨3, 10⟩

theorem rotation_cycle_witness :
    jPieceCells ≠ [] ∧
    is_legal (cellsAt jPieceState.brick_type_index
      ((jPieceState.brick_shape_index + 1) % numShapes jPieceState.brick_type_index)
      jPieceState.brick_pos_origin) [] = true ∧
    jPieceState.brick_shape_index < numShapes jPieceState.brick_type_index ∧
    (input keysRotate jPieceCells [] jPieceState =
        ⟨rotateStep jPieceState,
          some (cellsAt jPieceState.brick_type_index
            ((jPieceState.brick_shape_index + 1) % numShapes jPieceState.brick_type_index)
            jPieceState.brick_pos_origin),
          false⟩ ∧
      (rotateStep jPieceState).brick_pos_origin = jPieceState.brick_pos_origin ∧
      (rotateStep jPieceState).brick_shape_index =
        (jPieceState.brick_shape_index + 1) % numShapes jPieceState.brick_type_index ∧
      rotateStep^[numShapes jPieceState.brick_type_index] jPieceState = jPieceState ∧
      cellsAt (rotateStep^[numShapes jPieceState.brick_type_index] jPieceState).brick_type_index
          (rotateStep^[numShapes jPieceState.brick_type_index] jPieceState).brick_shape_index
          (rotateStep^[numShapes jPieceState.brick_type_index] jPieceState).brick_pos_origin =
        cellsAt jPieceState.brick_type_index jPieceState.brick_shape_index
          jPieceState.brick_pos_origin) :=
  ⟨by decide, by decide, by decide,
    rotation_cycle jPieceCells [] jPieceState (by decide) (by decide) (by decide)⟩

/-! ### Spawn collision and game over (C8) -/

/-- C8: when a spawned piece's absolute cells intersect the locked cells,
`brick_gen` sets the state to `GameOver` (no error): the 4 spawn cells are
still materialized as the active piece, every key dispatch without `R` is a
no-op in `GameOver`, and the `R` restart dispatch returns to `Gaming`. -/
theorem spawn_collision_game_over (g : GameState) (t : Nat) (ht : t < 7)
    (hcol : ∃ p ∈ spawnCells t, p ∈ g.stable) :
    (brick_gen t g).app = AppState.GameOver ∧
    (brick_gen t g).active = spawnCells t ∧
    (spawnCells t).length = 4 ∧
    (∀ k : Keys, k.r = false → commandStep k (brick_gen t g) = brick_gen t g) ∧
    (∀ k : Keys, k.r = true →
      commandStep k (brick_gen t g) = restartState (brick_gen t g) ∧
      (commandStep k (brick_gen t g)).app = AppState.Gaming) := by
  have hover : (spawnCells t).any (fun p => memb p g.stable) = true := by
    rw [List.any_eq_true]
    obtain ⟨p, hp, hmem⟩ := hcol
    exact ⟨p, hp, memb_eq_true.mpr hmem⟩
  have happ : (brick_gen t g).app = AppState.GameOver := by
    simp only [brick_gen, hover, if_true]
  have hlen : (spawnCells t).length = 4 := by
    have hall : ∀ t' < 7, (spawnCells t').length = 4 := by decide
    exact hall t ht
  refine ⟨happ, rfl, hlen, ?_, ?_⟩
  · intro k hk
    simp only [commandStep, happ, hk, Bool.false_eq_true, if_false]
  · intro k hk
    have h1 : commandStep k (brick_gen t g) = restartState (brick_gen t g) := by
      simp only [commandStep, happ, hk, if_true]
    exact ⟨h1, by rw [h1]; rfl⟩

/-- A game state whose locked cells are exactly the O-piece spawn cells. -/
def blockedSpawnState : GameState :=
  ⟨spawnCells 0, [], ⟨0, 0, ⟨SPAWN_X, SPAWN_Y⟩⟩, AppState.Gaming, 0⟩

theorem spawn_collision_game_over_witness :
    (0 < 7 ∧ ∃ p ∈ spawnCells 0, p ∈ blockedSpawnState.stable) ∧
    ((brick_gen 0 blockedSpawnState).app = AppState.GameOver ∧
      (brick_gen 0 blockedSpawnState).active = spawnCells 0 ∧
      (spawnCells 0).length = 4 ∧
      (∀ k : Keys, k.r = false →
        commandStep k (brick_gen 0 blockedSpawnState) = brick_gen 0 blockedSpawnState) ∧
      (∀ k : Keys, k.r = true →
        commandStep k (brick_gen 0 blockedSpawnState)
            = restartState (brick_gen 0 blockedSpawnState) ∧
        (commandStep k (brick_gen 0 blockedSpawnState)).app = AppState.Gaming)) :=
  ⟨⟨by decide, by decide⟩,
    spawn_collision_game_over blockedSpawnState 0 (by decide) (by decide)⟩

/-! ### Line clear: basic facts about rows and the compaction map -/

/-- A cell inside the 10×20 board. -/
def inBounds (p : BrickPos) : Prop :=
  0 ≤ p.x ∧ p.x < BOARD_WIDTH ∧ 0 ≤ p.y ∧ p.y < BOARD_HEIGHT

instance (p : BrickPos) : Decidable (inBounds p) := by
  unfold inBounds
  infer_instance

/-- The locked-cell invariant: distinct coordinates, all inside the board. -/
def StableOK (l : List BrickPos) : Prop :=
  l.Nodup ∧ ∀ p ∈ l, inBounds p

theorem mem_intRange {n : Nat} {y : Int} : y ∈ intRange n ↔ 0 ≤ y ∧ y < n := by
  simp only [intRange, List.mem_map, List.mem_range]
  constructor
  · rintro ⟨i, hi, rfl⟩
    constructor
    · exact Int.natCast_nonneg i
    · exact_mod_cast hi
  · rintro ⟨h0, hn⟩
    refine ⟨y.toNat, ?_, Int.toNat_of_nonneg h0⟩
    omega

theorem nodup_intRange (n : Nat) : (intRange n).Nodup :=
  (List.nodup_range n).map (fun _ _ h => by exact_mod_cast h)

theorem length_intRange (n : Nat) : (intRange n).length = n := by
  simp [intRange]

theorem fullRows_nodup (l : List BrickPos) : (fullRows l).Nodup :=
  (nodup_intRange 20).filter _

theorem mem_fullRows {l : List BrickPos} {y : Int} :
    y ∈ fullRows l ↔ 0 ≤ y ∧ y < 20 ∧ isFullRow l y = true := by
  simp only [fullRows, List.mem_filter, mem_intRange]
  constructor
  · rintro ⟨⟨h0, h20⟩, hf⟩
    exact ⟨h0, by exact_mod_cast h20, hf⟩
  · rintro ⟨h0, h20, hf⟩
    exact ⟨⟨h0, by exact_mod_cast h20⟩, hf⟩

theorem isFullRow_iff {l : List BrickPos} {y : Int} :
    isFullRow l y = true ↔ ∀ x : Nat, x < 10 → (⟨(x : Int), y⟩ : BrickPos) ∈ l := by
  simp only [isFullRow, List.all_eq_true, List.mem_range, memb_eq_true]

theorem mem_rowEntries {l : List BrickPos} {y ty : Int} {pq : BrickPos × BrickPos} :
    pq ∈ rowEntries l y ty ↔
      ∃ x : Nat, x < 10 ∧ memb ⟨(x : Int), y⟩ l = true ∧
        pq = (⟨(x : Int), y⟩, ⟨(x : Int), ty⟩) := by
  simp only [rowEntries, List.mem_filterMap, List.mem_range]
  constructor
  · rintro ⟨x, hx, hif⟩
    by_cases hm : memb ⟨(x : Int), y⟩ l = true
    · rw [if_pos hm] at hif
      exact ⟨x, hx, hm, (Option.some_inj.mp hif).symm⟩
    · rw [if_neg hm] at hif
      exact absurd hif (Option.some_ne_none _).symm
  · rintro ⟨x, hx, hm, rfl⟩
    exact ⟨x, hx, by rw [if_pos hm]⟩

/-- Everything the compaction map records about one of its entries. -/
theorem compact_mem (l : List BrickPos) (removed : List Int) :
    ∀ (ys : List Int) (ty : Int) (p q : BrickPos),
      (p, q) ∈ compactAux l removed ys ty →
      q.x = p.x ∧ p ∈ l ∧ membI p.y removed = false ∧ 0 ≤ p.x ∧ p.x < 10 ∧
        p.y ∈ ys ∧ ty ≤ q.y ∧ q.y < ty + ys.length := by
  intro ys
  induction ys with
  | nil => intro ty p q h; exact absurd h (List.not_mem_nil _)
  | cons y ys ih =>
    intro ty p q h
    simp only [compactAux] at h
    by_cases hrem : membI y removed = true
    · rw [if_pos hrem] at h
      obtain ⟨h1, h2, h3, h4, h5, h6, h7, h8⟩ := ih ty p q h
      refine ⟨h1, h2, h3, h4, h5, List.mem_cons_of_mem _ h6, h7, ?_⟩
      simp only [List.length_cons]
      omega
    · rw [if_neg hrem] at h
      by_cases hes : (rowEntries l y ty).isEmpty = true
      · rw [if_pos hes] at h
        obtain ⟨h1, h2, h3, h4, h5, h6, h7, h8⟩ := ih ty p q h
        refine ⟨h1, h2, h3, h4, h5, List.mem_cons_of_mem _ h6, h7, ?_⟩
        simp only [List.length_cons]
        omega
      · rw [if_neg hes] at h
        rcases List.mem_append.mp h with hin | hin
        · obtain ⟨x, hx, hm, heq⟩ := mem_rowEntries.mp hin
          have hp : p = ⟨(x : Int), y⟩ := congrArg Prod.fst heq
          have hq : q = ⟨(x : Int), ty⟩ := congrArg Prod.snd heq
          subst hp
          subst hq
          refine ⟨rfl, memb_eq_true.mp hm, ?_, ?_, ?_, List.mem_cons_self _ _, le_refl _, ?_⟩
          · exact Bool.eq_false_iff.mpr hrem
          · exact Int.natCast_nonneg x
          · show ((x : Nat) : Int) < 10
            exact_mod_cast hx
          · simp only [List.length_cons]
            omega
        · obtain ⟨h1, h2, h3, h4, h5, h6, h7, h8⟩ := ih (ty + 1) p q hin
          refine ⟨h1, h2, h3, h4, h5, List.mem_cons_of_mem _ h6, by omega, ?_⟩
          simp only [List.length_cons]
          omega

/-- The compaction map never sends two distinct old cells to the same new
cell: within one row the x offset separates them, across rows the target
row does. -/
theorem compact_inj (l : List BrickPos) (removed : List Int) :
    ∀ (ys : List Int) (ty : Int) (p₁ q₁ p₂ q₂ : BrickPos),
      (p₁, q₁) ∈ compactAux l removed ys ty →
      (p₂, q₂) ∈ compactAux l removed ys ty → q₁ = q₂ → p₁ = p₂ := by
  intro ys
  induction ys with
  | nil => intro ty p₁ q₁ p₂ q₂ h; exact absurd h (List.not_mem_nil _)
  | cons y ys ih =>
    intro ty p₁ q₁ p₂ q₂ h₁ h₂ hq
    simp only [compactAux] at h₁ h₂
    by_cases hrem : membI y removed = true
    · rw [if_pos hrem] at h₁ h₂
      exact ih ty p₁ q₁ p₂ q₂ h₁ h₂ hq
    · rw [if_neg hrem] at h₁ h₂
      by_cases hes : (rowEntries l y ty).isEmpty = true
      · rw [if_pos hes] at h₁ h₂
        exact ih ty p₁ q₁ p₂ q₂ h₁ h₂ hq
      · rw [if_neg hes] at h₁ h₂
        rcases List.mem_append.mp h₁ with hin₁ | hin₁ <;>
          rcases List.mem_append.mp h₂ with hin₂ | hin₂
        · obtain ⟨x₁, hx₁, hm₁, he₁⟩ := mem_rowEntries.mp hin₁
          obtain ⟨x₂, hx₂, hm₂, he₂⟩ := mem_rowEntries.mp hin₂
          have hq₁ : q₁ = ⟨(x₁ : Int), ty⟩ := congrArg Prod.snd he₁
          have hq₂ : q₂ = ⟨(x₂ : Int), ty⟩ := congrArg Prod.snd he₂
          have hx : (x₁ : Int) = (x₂ : Int) := by
            have := hq₁ ▸ hq₂ ▸ hq
            exact congrArg BrickPos.x this
          have hp₁ : p₁ = ⟨(x₁ : Int), y⟩ := congrArg Prod.fst he₁
          have hp₂ : p₂ = ⟨(x₂ : Int), y⟩ := congrArg Prod.fst he₂
          rw [hp₁, hp₂, hx]
        · obtain ⟨x₁, hx₁, hm₁, he₁⟩ := mem_rowEntries.mp hin₁
          have hq₁ : q₁ = ⟨(x₁ : Int), ty⟩ := congrArg Prod.snd he₁
          have hb := (compact_mem l removed ys (ty + 1) p₂ q₂ hin₂).2.2.2.2.2.2.1
          rw [← hq] at hb
          rw [hq₁] at hb
          simp only at hb
          omega
        · obtain ⟨x₂, hx₂, hm₂, he₂⟩ := mem_rowEntries.mp hin₂
          have hq₂ : q₂ = ⟨(x₂ : Int), ty⟩ := congrArg Prod.snd he₂
          have hb := (compact_mem l removed ys (ty + 1) p₁ q₁ hin₁).2.2.2.2.2.2.1
          rw [hq] at hb
          rw [hq₂] at hb
          simp only at hb
          omega
        · exact ih (ty + 1) p₁ q₁ p₂ q₂ hin₁ hin₂ hq

theorem lookupPos_mem : ∀ (mp : List (BrickPos × BrickPos)) (p q : BrickPos),
    lookupPos mp p = some q → (p, q) ∈ mp := by
  intro mp
  induction mp with
  | nil => intro p q h; exact absurd h (Option.some_ne_none _).symm
  | cons e es ih =>
    intro p q h
    simp only [lookupPos] at h
    by_cases he : e.1 = p
    · rw [if_pos he] at h
      have : e = (p, q) := by
        obtain ⟨e1, e2⟩ := e
        simp only at he
        cases he
        cases Option.some_inj.mp h
        rfl
      rw [← this]
      exact List.mem_cons_self _ _
    · rw [if_neg he] at h
      exact List.mem_cons_of_mem _ (ih p q h)

theorem lookupPos_isSome_of_mem : ∀ (mp : List (BrickPos × BrickPos)) (p q : BrickPos),
    (p, q) ∈ mp → (lookupPos mp p).isSome = true := by
  intro mp
  induction mp with
  | nil => intro p q h; exact absurd h (List.not_mem_nil _)
  | cons e es ih =>
    intro p q h
    simp only [lookupPos]
    by_cases he : e.1 = p
    · rw [if_pos he]; rfl
    · rw [if_neg he]
      rcases List.mem_cons.mp h with heq | hmem
      · exact absurd (congrArg Prod.fst heq.symm) he
      · exact ih p q hmem

/-- Every in-bounds surviving stable cell is a key of the compaction map. -/
theorem compact_total (l : List BrickPos) (removed : List Int) :
    ∀ (ys : List Int) (ty : Int) (p : BrickPos),
      0 ≤ p.x → p.x < 10 → memb p l = true → membI p.y removed = false → p.y ∈ ys →
      ∃ q, (p, q) ∈ compactAux l removed ys ty := by
  intro ys
  induction ys with
  | nil => intro ty p _ _ _ _ h; exact absurd h (List.not_mem_nil _)
  | cons y ys ih =>
    intro ty p hx0 hx10 hmemb hrem hy
    by_cases hpy : p.y = y
    · have hyrem : membI y removed = false := hpy ▸ hrem
      have hentry : (p, (⟨p.x, ty⟩ : BrickPos)) ∈ rowEntries l y ty := by
        rw [mem_rowEntries]
        refine ⟨p.x.toNat, ?_, ?_, ?_⟩
        · omega
        · rw [show ((p.x.toNat : Int)) = p.x from Int.toNat_of_nonneg hx0]
          have hp : (⟨p.x, y⟩ : BrickPos) = p := by
            obtain ⟨px, py⟩ := p
            simp only at hpy
            rw [hpy]
          rw [hp]
          exact hmemb
        · rw [show ((p.x.toNat : Int)) = p.x from Int.toNat_of_nonneg hx0]
          obtain ⟨px, py⟩ := p
          simp only at hpy
          rw [hpy]
      have hes : (rowEntries l y ty).isEmpty = false := by
        cases hrow : rowEntries l y ty with
        | nil => rw [hrow] at hentry; exact absurd hentry (List.not_mem_nil _)
        | cons a es => rfl
      refine ⟨⟨p.x, ty⟩, ?_⟩
      simp only [compactAux]
      rw [if_neg (by rw [hyrem]; exact Bool.false_ne_true), if_neg (by rw [hes]; exact Bool.false_ne_true)]
      exact List.mem_append_left _ hentry
    · have hy' : p.y ∈ ys := by
        rcases List.mem_cons.mp hy with h | h
        · exact absurd h hpy
        · exact h
      simp only [compactAux]
      by_cases hrem' : membI y removed = true
      · rw [if_pos hrem']
        exact ih ty p hx0 hx10 hmemb hrem hy'
      · rw [if_neg hrem']
        by_cases hes : (rowEntries l y ty).isEmpty = true
        · rw [if_pos hes]
          exact ih ty p hx0 hx10 hmemb hrem hy'
        · rw [if_neg hes]
          obtain ⟨q, hq⟩ := ih (ty + 1) p hx0 hx10 hmemb hrem hy'
          exact ⟨q, List.mem_append_right _ hq⟩

theorem BOARD_WIDTH_eq : BOARD_WIDTH = 10 := rfl

theorem BOARD_HEIGHT_eq : BOARD_HEIGHT = 20 := rfl

/-- Every in-bounds stable cell surviving the clear has a mapped target. -/
theorem clear_lookup (l : List BrickPos) (hbd : ∀ p ∈ l, inBounds p) (p : BrickPos)
    (hp : p ∈ l) (hprem : membI p.y (fullRows l) = false) :
    ∃ q, lookupPos (compactAux l (fullRows l) (intRange 20) 0) p = some q ∧
      (p, q) ∈ compactAux l (fullRows l) (intRange 20) 0 := by
  obtain ⟨hx0, hx10, hy0, hy20⟩ := hbd p hp
  rw [BOARD_WIDTH_eq] at hx10
  rw [BOARD_HEIGHT_eq] at hy20
  obtain ⟨q0, hq0⟩ := compact_total l (fullRows l) (intRange 20) 0 p hx0 hx10
    (memb_eq_true.mpr hp) hprem (mem_intRange.mpr ⟨hy0, by exact_mod_cast hy20⟩)
  obtain ⟨q, hq⟩ := Option.isSome_iff_exists.mp (lookupPos_isSome_of_mem _ p q0 hq0)
  exact ⟨q, hq, lookupPos_mem _ p q hq⟩

/-- `clearCells` preserves the locked-cell invariant: results are distinct
and in bounds. -/
theorem clearCells_ok (l : List BrickPos) (h : StableOK l) : StableOK (clearCells l) := by
  obtain ⟨hnd, hbd⟩ := h
  show StableOK ((l.filter fun p => !(membI p.y (fullRows l))).map
    (applyRemap (compactAux l (fullRows l) (intRange 20) 0)))
  have hmemf : ∀ p ∈ l.filter fun p => !(membI p.y (fullRows l)),
      p ∈ l ∧ membI p.y (fullRows l) = false := by
    intro p hp
    obtain ⟨h1, h2⟩ := List.mem_filter.mp hp
    refine ⟨h1, ?_⟩
    revert h2
    cases membI p.y (fullRows l) <;> simp
  constructor
  · refine List.Nodup.map_on ?_ (hnd.filter _)
    intro p₁ hp₁ p₂ hp₂ heq
    obtain ⟨hm₁, hr₁⟩ := hmemf p₁ hp₁
    obtain ⟨hm₂, hr₂⟩ := hmemf p₂ hp₂
    obtain ⟨q₁, hl₁, hmem₁⟩ := clear_lookup l hbd p₁ hm₁ hr₁
    obtain ⟨q₂, hl₂, hmem₂⟩ := clear_lookup l hbd p₂ hm₂ hr₂
    have : q₁ = q₂ := by
      have e₁ : applyRemap (compactAux l (fullRows l) (intRange 20) 0) p₁ = q₁ := by
        simp [applyRemap, hl₁]
      have e₂ : applyRemap (compactAux l (fullRows l) (intRange 20) 0) p₂ = q₂ := by
        simp [applyRemap, hl₂]
      rw [← e₁, ← e₂, heq]
    exact compact_inj l (fullRows l) (intRange 20) 0 p₁ q₁ p₂ q₂ hmem₁ hmem₂ this
  · intro q hq
    obtain ⟨p, hp, hpq⟩ := List.mem_map.mp hq
    obtain ⟨hm, hr⟩ := hmemf p hp
    obtain ⟨q', hl', hmem'⟩ := clear_lookup l hbd p hm hr
    have hq' : q = q' := by
      rw [← hpq]
      simp [applyRemap, hl']
    obtain ⟨hqx, _, _, hx0, hx10, _, hty, hlen⟩ :=
      compact_mem l (fullRows l) (intRange 20) 0 p q' hmem'
    rw [length_intRange] at hlen
    subst hq'
    obtain ⟨hx0', hx10', hy0', hy20'⟩ := hbd p hm
    refine ⟨?_, ?_, ?_, ?_⟩
    · rw [hqx]; exact hx0'
    · rw [hqx]; exact hx10'
    · omega
    · rw [BOARD_HEIGHT_eq]
      omega

/-! ### Line clear: cell counting (C5) -/

theorem filter_not_add_filter {α : Type} (f : α → Bool) :
    ∀ l : List α, (l.filter fun a => !(f a)).length + (l.filter f).length = l.length := by
  intro l
  induction l with
  | nil => rfl
  | cons a l ih =>
    cases h : f a <;> simp [List.filter_cons, h] <;> omega

theorem filter_or_disjoint {α : Type} (f g : α → Bool) (hfg : ∀ a, f a = true → g a = false) :
    ∀ l : List α,
      (l.filter fun a => f a || g a).length = (l.filter f).length + (l.filter g).length := by
  intro l
  induction l with
  | nil => rfl
  | cons a l ih =>
    cases hf : f a
    · cases hg : g a <;> simp [List.filter_cons, hf, hg, ih] <;> omega
    · have hg : g a = false := hfg a hf
      simp [List.filter_cons, hf, hg, ih]
      omega

/-- The cells of one full row, listed by x offset. -/
def rowCells (y : Int) : List BrickPos :=
  (List.range 10).map fun x : Nat => (⟨(x : Int), y⟩ : BrickPos)

theorem rowCells_nodup (y : Int) : (rowCells y).Nodup :=
  (List.nodup_range 10).map fun a b h => by
    have : ((a : Nat) : Int) = ((b : Nat) : Int) := congrArg BrickPos.x h
    exact_mod_cast this

/-- In a distinct in-bounds board, a full row holds exactly `width = 10`
cells. -/
theorem row_count (l : List BrickPos) (hnd : l.Nodup) (hbd : ∀ p ∈ l, inBounds p)
    (y : Int) (hy : y ∈ fullRows l) :
    (l.filter fun p => decide (y = p.y)).length = 10 := by
  have hfull := (mem_fullRows.mp hy).2.2
  have hnodupF : (l.filter fun p => decide (y = p.y)).Nodup := hnd.filter _
  have hset : (l.filter fun p => decide (y = p.y)).toFinset = (rowCells y).toFinset := by
    ext a
    rw [List.mem_toFinset, List.mem_toFinset, List.mem_filter]
    constructor
    · rintro ⟨hal, hay⟩
      have hay' : y = a.y := of_decide_eq_true hay
      obtain ⟨hx0, hx10, _, _⟩ := hbd a hal
      rw [BOARD_WIDTH_eq] at hx10
      rw [rowCells]
      rw [List.mem_map]
      refine ⟨a.x.toNat, List.mem_range.mpr (by omega), ?_⟩
      obtain ⟨ax, ay⟩ := a
      simp only at hay' hx0 ⊢
      rw [Int.toNat_of_nonneg hx0, hay']
    · intro ha
      rw [rowCells, List.mem_map] at ha
      obtain ⟨x, hx, rfl⟩ := ha
      have hx10 := List.mem_range.mp hx
      refine ⟨isFullRow_iff.mp hfull x hx10, ?_⟩
      simp
  have hcard := List.toFinset_card_of_nodup hnodupF
  rw [hset, List.toFinset_card_of_nodup (rowCells_nodup y)] at hcard
  rw [← hcard]
  simp [rowCells]

theorem filter_membI_split (l : List BrickPos) :
    ∀ removed : List Int, removed.Nodup →
      (l.filter fun p => membI p.y removed).length =
        (removed.map fun y => (l.filter fun p => decide (y = p.y)).length).sum := by
  intro removed
  induction removed with
  | nil =>
    intro _
    have h0 : (l.filter fun p => membI p.y ([] : List Int)) = [] := by
      apply List.filter_eq_nil_iff.mpr
      intro a _
      simp [membI]
    rw [h0]
    rfl
  | cons y ys ih =>
    intro hnd
    obtain ⟨hy, hys⟩ := List.nodup_cons.mp hnd
    have hsplit : (l.filter fun p => membI p.y (y :: ys)) =
        l.filter fun p => (decide (y = p.y) || membI p.y ys) := by
      apply List.filter_congr
      intro p _
      rfl
    rw [hsplit,
      filter_or_disjoint (fun p => decide (y = p.y)) (fun p => membI p.y ys) ?hdisj l,
      List.map_cons, List.sum_cons, ih hys]
    case hdisj =>
      intro p hp
      have hp' : decide (y = p.y) = true := hp
      have hyy : y = p.y := of_decide_eq_true hp'
      show membI p.y ys = false
      rw [← hyy]
      exact membI_eq_false.mpr hy

theorem sum_const_ten : ∀ ys : List Int, ((ys.map fun _ => (10 : Nat)).sum = 10 * ys.length) := by
  intro ys
  induction ys with
  | nil => rfl
  | cons y ys ih =>
    simp only [List.map_cons, List.sum_cons, List.length_cons, ih]
    ring

/-- The number of cells removed by a clear is `10 * (number of full rows)`. -/
theorem removed_count (l : List BrickPos) (hnd : l.Nodup) (hbd : ∀ p ∈ l, inBounds p) :
    (l.filter fun p => membI p.y (fullRows l)).length = 10 * (fullRows l).length := by
  rw [filter_membI_split l (fullRows l) (fullRows_nodup l)]
  have hmap : ((fullRows l).map fun y => (l.filter fun p => decide (y = p.y)).length) =
      (fullRows l).map fun _ => (10 : Nat) := by
    apply List.map_congr_left
    intro y hy
    exact row_count l hnd hbd y hy
  rw [hmap, sum_const_ten]

theorem clearCells_length (l : List BrickPos) (hnd : l.Nodup) (hbd : ∀ p ∈ l, inBounds p) :
    (clearCells l).length + 10 * (fullRows l).length = l.length := by
  show ((l.filter fun p => !(membI p.y (fullRows l))).map
    (applyRemap (compactAux l (fullRows l) (intRange 20) 0))).length + _ = _
  rw [List.length_map, ← removed_count l hnd hbd]
  exact filter_not_add_filter (fun p => membI p.y (fullRows l)) l

/-- C5 as amended: a clear removing `n` full rows removes exactly `10 * n`
cells — each full row holds exactly `width = 10` cells — so
`N - 10*|R|` cells remain (not `N - 4*|R|`). -/
theorem clear_cell_count (l l' : List BrickPos) (n : Nat)
    (hnd : l.Nodup) (hbd : ∀ p ∈ l, inBounds p)
    (h : brick_fullline_clear l = (l', some n)) :
    l'.length + 10 * n = l.length ∧
    ∀ y ∈ fullRows l, (l.filter fun p => decide (y = p.y)).length = 10 := by
  have hln : l' = clearCells l ∧ n = (fullRows l).length := by
    by_cases he : l.isEmpty
    · rw [brick_fullline_clear, if_pos he] at h
      exact absurd (congrArg Prod.snd h) (by simp)
    · by_cases hz : (fullRows l).length = 0
      · rw [brick_fullline_clear, if_neg he] at h
        simp only [hz, if_pos] at h
        exact absurd (congrArg Prod.snd h) (by simp)
      · rw [brick_fullline_clear, if_neg he] at h
        simp only [hz, if_neg, if_false] at h
        exact ⟨(congrArg Prod.fst h).symm, by
          have := congrArg Prod.snd h
          simpa using this.symm⟩
  obtain ⟨rfl, rfl⟩ := hln
  exact ⟨clearCells_length l hnd hbd, fun y hy => row_count l hnd hbd y hy⟩

/-- A board with one full bottom row plus one extra cell: 11 cells. -/
def elevenCellBoard : List BrickPos := fullRowBoard ++ [⟨0, 1⟩]

/-- C5 counterexample: clearing the one full row of an 11-cell board leaves
1 cell — `N - 10*|R| = 11 - 10` — and not `N - 4*|R| = 11 - 4 = 7` as the
claim states. -/
theorem clear_cell_count_counterexample :
    elevenCellBoard.length = 11 ∧
    (brick_fullline_clear elevenCellBoard).2 = some 1 ∧
    (brick_fullline_clear elevenCellBoard).1.length = 1 ∧
    (brick_fullline_clear elevenCellBoard).1.length ≠ elevenCellBoard.length - 4 * 1 := by
  refine ⟨rfl, by decide, by decide, by decide⟩

theorem clear_cell_count_witness :
    elevenCellBoard.Nodup ∧ (∀ p ∈ elevenCellBoard, inBounds p) ∧
    brick_fullline_clear elevenCellBoard = ([⟨0, 0⟩], some 1) ∧
    (([⟨0, 0⟩] : List BrickPos).length + 10 * 1 = elevenCellBoard.length ∧
      ∀ y ∈ fullRows elevenCellBoard,
        (elevenCellBoard.filter fun p => decide (y = p.y)).length = 10) :=
  ⟨by decide, by decide, by decide,
    clear_cell_count elevenCellBoard [⟨0, 0⟩] 1 (by decide) (by decide) (by decide)⟩

/-! ### The reachable-state invariant (C9) -/

theorem numShapes_pos : ∀ t < 7, 0 < numShapes t := by decide

theorem shape_nodup : ∀ t < 7, ∀ j < numShapes t, (shapeOf t j).Nodup := by decide

theorem spawn_nodup : ∀ t < 7, (spawnCells t).Nodup := by decide

theorem spawn_inbounds : ∀ t < 7, ∀ p ∈ spawnCells t, inBounds p := by decide

theorem BrickPos.add_right_cancel {p q o : BrickPos} (h : p + o = q + o) : p = q := by
  obtain ⟨px, py⟩ := p
  obtain ⟨qx, qy⟩ := q
  obtain ⟨ox, oy⟩ := o
  simp only [BrickPos.add_def, BrickPos.mk.injEq] at h ⊢
  exact ⟨by omega, by omega⟩

theorem cellsAt_nodup (t : Nat) (ht : t < 7) (j : Nat) (o : BrickPos) :
    (cellsAt t j o).Nodup := by
  by_cases hj : j < numShapes t
  · exact (shape_nodup t ht j hj).map fun a b h => BrickPos.add_right_cancel h
  · have : shapeOf t j = [] := by
      unfold shapeOf
      exact List.getD_eq_default _ _ (by unfold numShapes at hj; omega)
    unfold cellsAt
    rw [this]
    exact List.nodup_nil

theorem translate_nodup {m : List BrickPos} (h : m.Nodup) (mv : BrickPos) :
    (m.map fun p => p + mv).Nodup :=
  h.map fun a b hab => BrickPos.add_right_cancel hab

theorem ne_nil_of_isEmpty_false {α : Type} {l : List α} (h : ¬l.isEmpty = true) : l ≠ [] := by
  cases l
  · simp at h
  · simp

/-- Every outcome of one `input` pass: no-op, accepted rotation, accepted
move (by some displacement), or a `StableEvent` (failed down move). -/
theorem input_cases (k : Keys) (m s : List BrickPos) (bs : BrickState) :
    input k m s bs = ⟨bs, none, false⟩ ∨
    (input k m s bs = ⟨rotateStep bs,
        some (cellsAt bs.brick_type_index
          ((bs.brick_shape_index + 1) % numShapes bs.brick_type_index) bs.brick_pos_origin),
        false⟩ ∧
      is_legal (cellsAt bs.brick_type_index
        ((bs.brick_shape_index + 1) % numShapes bs.brick_type_index) bs.brick_pos_origin) s
        = true) ∨
    (∃ mv, input k m s bs = ⟨{ bs with brick_pos_origin := bs.brick_pos_origin + mv },
        some (m.map fun p => p + mv), false⟩ ∧
      is_legal (m.map fun p => p + mv) s = true) ∨
    (input k m s bs = ⟨bs, none, true⟩ ∧ m ≠ []) := by
  by_cases hm : m.isEmpty = true
  · left
    simp [input, hm]
  · by_cases hw : k.w = true
    · by_cases hleg : is_legal (cellsAt bs.brick_type_index
          ((bs.brick_shape_index + 1) % numShapes bs.brick_type_index) bs.brick_pos_origin) s
          = true
      · refine Or.inr (Or.inl ⟨?_, hleg⟩)
        simp only [input, if_neg hm, if_pos hw, if_pos hleg]
        rfl
      · left
        simp only [input, if_neg hm, if_pos hw, if_neg hleg]
    · cases hmk : moveKey k m s with
      | none =>
        left
        simp only [input, if_neg hm, if_neg hw, hmk]
      | some mv =>
        by_cases hleg : is_legal (m.map fun p => p + mv) s = true
        · refine Or.inr (Or.inr (Or.inl ⟨mv, ?_, hleg⟩))
          simp only [input, if_neg hm, if_neg hw, hmk, if_pos hleg]
        · by_cases hy : mv.y = -1
          · refine Or.inr (Or.inr (Or.inr ⟨?_, ne_nil_of_isEmpty_false hm⟩))
            simp only [input, if_neg hm, if_neg hw, hmk, if_neg hleg, if_pos hy]
          · left
            simp only [input, if_neg hm, if_neg hw, hmk, if_neg hleg, if_neg hy]

/-- Locking merges a legal, duplicate-free active piece into the stable
cells without breaking the invariant. -/
theorem stable_append_ok {stable active : List BrickPos} (hst : StableOK stable)
    (hleg : is_legal active stable = true) (hnd : active.Nodup) :
    StableOK (stable ++ active) := by
  have hcells := is_legal_eq_true.mp hleg
  constructor
  · refine List.Nodup.append hst.1 hnd ?_
    intro a ha1 ha2
    exact (hcells a ha2).2.2.2.2 ha1
  · intro p hp
    rcases List.mem_append.mp hp with h | h
    · exact hst.2 p h
    · obtain ⟨h1, h2, h3, h4, _⟩ := hcells p h
      exact ⟨h1, h2, h3, h4⟩

theorem fullline_fst_ok (l : List BrickPos) (h : StableOK l) :
    StableOK (brick_fullline_clear l).1 := by
  by_cases he : l.isEmpty = true
  · rw [brick_fullline_clear, if_pos he]
    exact h
  · by_cases hz : (fullRows l).length = 0
    · rw [brick_fullline_clear, if_neg he]
      simp only [hz, if_pos]
      exact h
    · rw [brick_fullline_clear, if_neg he]
      simp only [hz, if_neg, if_false]
      exact clearCells_ok l h

/-- The active piece, whenever the game is running, is either absent or a
legal duplicate-free cell set. -/
def ActiveOK (g : GameState) : Prop :=
  g.app = AppState.Gaming →
    g.active = [] ∨ (is_legal g.active g.stable = true ∧ g.active.Nodup)

/-- The inductive invariant: locked cells distinct and in bounds, the piece
kind in range, the active piece sane while playing. -/
def Inv (g : GameState) : Prop :=
  StableOK g.stable ∧ g.bs.brick_type_index < 7 ∧ ActiveOK g

theorem lockAndClear_fields (g : GameState) :
    (lockAndClear g).stable = (brick_fullline_clear (g.stable ++ g.active)).1 ∧
    (lockAndClear g).active = [] ∧
    (lockAndClear g).bs = g.bs ∧
    (lockAndClear g).app = g.app := ⟨rfl, rfl, rfl, rfl⟩

theorem lockAndClear_inv (g : GameState) (hst : StableOK g.stable)
    (hleg : is_legal g.active g.stable = true) (hnd : g.active.Nodup)
    (ht : g.bs.brick_type_index < 7) : Inv (lockAndClear g) := by
  refine ⟨?_, ht, ?_⟩
  · exact fullline_fst_ok _ (stable_append_ok hst hleg hnd)
  · intro _
    left
    rfl

theorem step_preserves {g g' : GameState} (hg : Inv g) (hs : Step g g') : Inv g' := by
  obtain ⟨hst, ht, hact⟩ := hg
  cases hs with
  | spawn t htl happ hempty =>
    refine ⟨hst, htl, ?_⟩
    intro happ'
    by_cases hover : (spawnCells t).any (fun p => memb p g.stable) = true
    · exfalso
      have : (brick_gen t g).app = AppState.GameOver := by
        simp only [brick_gen, hover, if_true]
      rw [happ'] at this
      exact AppState.noConfusion this
    · right
      have hover' : ((spawnCells t).any fun p => memb p g.stable) = false :=
        Bool.eq_false_iff.mpr hover
      have hnotin := List.any_eq_false.mp hover'
      constructor
      · rw [is_legal_eq_true]
        intro p hp
        obtain ⟨h1, h2, h3, h4⟩ := spawn_inbounds t htl p hp
        refine ⟨h1, h2, h3, h4, ?_⟩
        intro hmem
        exact (hnotin p hp) (memb_eq_true.mpr hmem)
      · exact spawn_nodup t htl
  | command k =>
    cases happ : g.app with
    | GameOver =>
      by_cases hr : k.r = true
      · have : commandStep k g = restartState g := by
          simp only [commandStep, happ, hr, if_true]
        rw [this]
        refine ⟨⟨List.nodup_nil, ?_⟩, ht, ?_⟩
        · intro p hp
          exact absurd hp (List.not_mem_nil p)
        · intro _
          left
          rfl
      · have : commandStep k g = g := by
          simp [commandStep, happ, hr]
        rw [this]
        exact ⟨hst, ht, hact⟩
    | Gaming =>
      have hcs : commandStep k g = inputStep k g := by
        simp only [commandStep, happ]
      rw [hcs]
      rcases input_cases k g.active g.stable g.bs with hr | ⟨hr, hleg⟩ | ⟨mv, hr, hleg⟩ |
          ⟨hr, hmne⟩
      · have : inputStep k g = g := by
          simp [inputStep, hr]
        rw [this]
        exact ⟨hst, ht, hact⟩
      · have : inputStep k g =
            { g with
              bs := rotateStep g.bs
              active := cellsAt g.bs.brick_type_index
                ((g.bs.brick_shape_index + 1) % numShapes g.bs.brick_type_index)
                g.bs.brick_pos_origin } := by
          simp [inputStep, hr]
        rw [this]
        refine ⟨hst, ht, ?_⟩
        intro _
        right
        exact ⟨hleg, cellsAt_nodup _ ht _ _⟩
      · have : inputStep k g =
            { g with
              bs := { g.bs with brick_pos_origin := g.bs.brick_pos_origin + mv }
              active := g.active.map fun p => p + mv } := by
          simp [inputStep, hr]
        rw [this]
        refine ⟨hst, ht, ?_⟩
        intro _
        right
        refine ⟨hleg, ?_⟩
        rcases hact happ with hemp | ⟨_, hnd⟩
        · rw [hemp]
          exact List.nodup_nil
        · exact translate_nodup hnd mv
      · have : inputStep k g = lockAndClear g := by
          simp [inputStep, hr]
        rw [this]
        rcases hact happ with hemp | ⟨hleg, hnd⟩
        · exact absurd hemp hmne
        · exact lockAndClear_inv g hst hleg hnd ht
  | fall happ =>
    by_cases hemp : g.active.isEmpty = true
    · have : brick_auto_fall g = g := by
        simp only [brick_auto_fall, hemp, if_true]
      rw [this]
      exact ⟨hst, ht, hact⟩
    · by_cases hleg : is_legal (g.active.map fun p => p + BrickPos.mk 0 (-1)) g.stable = true
      · have : brick_auto_fall g =
            { g with
              bs := { g.bs with brick_pos_origin := g.bs.brick_pos_origin + BrickPos.mk 0 (-1) }
              active := g.active.map fun p => p + BrickPos.mk 0 (-1) } := by
          simp only [brick_auto_fall]
          rw [if_neg hemp, if_pos hleg]
        rw [this]
        refine ⟨hst, ht, ?_⟩
        intro _
        right
        refine ⟨hleg, ?_⟩
        rcases hact happ with hemp' | ⟨_, hnd⟩
        · rw [hemp']
          exact List.nodup_nil
        · exact translate_nodup hnd _
      · have : brick_auto_fall g = lockAndClear g := by
          simp only [brick_auto_fall]
          rw [if_neg hemp, if_neg hleg]
        rw [this]
        rcases hact happ with hemp' | ⟨hleg', hnd⟩
        · exact absurd (List.isEmpty_iff.mpr hemp') hemp
        · exact lockAndClear_inv g hst hleg' hnd ht

theorem reachable_inv (g : GameState) (h : Reachable g) : Inv g := by
  induction h with
  | init =>
    refine ⟨⟨List.nodup_nil, ?_⟩, by decide, ?_⟩
    · intro p hp
      exact absurd hp (List.not_mem_nil p)
    · intro _
      left
      rfl
  | step _ hs ih => exact step_preserves ih hs

/-- C9: in every reachable game state the locked cells are pairwise distinct
and inside `[0,width) × [0,height)`; reachability quantifies over every
operation of the game (spawn, input, gravity, lock, line clear, restart), so
each of them preserves the invariant. -/
theorem locked_cells_invariant (g : GameState) (h : Reachable g) :
    g.stable.Nodup ∧
      ∀ p ∈ g.stable, 0 ≤ p.x ∧ p.x < BOARD_WIDTH ∧ 0 ≤ p.y ∧ p.y < BOARD_HEIGHT := by
  obtain ⟨⟨hnd, hbd⟩, _, _⟩ := reachable_inv g h
  exact ⟨hnd, fun p hp => hbd p hp⟩

theorem locked_cells_invariant_witness :
    initialState.stable.Nodup ∧
      ∀ p ∈ initialState.stable,
        0 ≤ p.x ∧ p.x < BOARD_WIDTH ∧ 0 ≤ p.y ∧ p.y < BOARD_HEIGHT :=
  locked_cells_invariant initialState Reachable.init

end Tetris
